import Mathlib

/-!
# Verification of the fetchx segmented download engine

A shallow embedding of the core data model and operations of the fetchx
download manager (Python), together with theorems settling the frozen
claims about its specification.

Conventions of the embedding:
* Python integers are modelled as `Int` (or `Nat` where the source value is
  a count that is never negative).  Python floor division `//` on
  non-negative operands is `Nat` division.
* Python strings are modelled as `String`, or as `List Char` where the
  claims quantify over string contents and need computable structural
  recursion.
* File systems are modelled as partial maps `String → Option (List Nat)`
  from path to byte content; `os.path.getsize` is the length of the
  content, `os.path.exists` is `Option.isSome`.
* The float literal `0.99` used by the source for the completion tolerance
  is modelled by the exact rational comparison `100 * x ≥ 99 * y`.
-/

/-! ## Segments (`fetchx_cli/core/connection.py`, `DownloadSegment`)

The dataclass `DownloadSegment` with the fields the claims mention.  The
`speed`/`eta` float fields are irrelevant to all claims and omitted.  The
Python field `end` is spelled `«end»` (`end` is a Lean keyword); the value
`-1` is the source's sentinel for an open-ended range ("download until
end"). -/
structure DownloadSegment where
  id : Nat
  start : Int
  «end» : Int
  downloaded : Int := 0
  completed : Bool := false
  retry_count : Nat := 0
  file_path : String := ""
  is_paused : Bool := false
deriving Repr, DecidableEq

/-- Part-file path `<temp_dir>/<filename>.part<i>` as constructed in
`EnhancedDownloader._create_segments`. -/
def partPath (temp_dir filename : String) (i : Nat) : String :=
  temp_dir ++ "/" ++ filename ++ ".part" ++ toString i

/-- `EnhancedDownloader._create_segments` (`core/downloader.py`).

The source tests `not self.download_info.total_size`, which is true both
for `None` and for `0`; hence the `total_size.getD 0 = 0` guard.  In the
multi-connection branch `segment_size = total_size // num_connections`
(Python floor division on non-negative integers = `Nat` division); segment
`i` starts at `i * segment_size`, ends at `start + segment_size - 1`,
except that the last segment's end is `total_size - 1`. -/
def create_segments (total_size : Option Nat) (supports_ranges : Bool)
    (num_connections : Nat) (temp_dir filename : String) : List DownloadSegment :=
  if total_size.getD 0 = 0 then
    [{ id := 0, start := 0, «end» := -1,
       file_path := partPath temp_dir filename 0 }]
  else
    let S : Nat := total_size.getD 0
    if ¬ supports_ranges ∨ num_connections ≤ 1 then
      [{ id := 0, start := 0, «end» := (S : Int) - 1,
         file_path := partPath temp_dir filename 0 }]
    else
      let segment_size : Nat := S / num_connections
      (List.range num_connections).map (fun i =>
        { id := i
          start := (i * segment_size : Nat)
          «end» := if i = num_connections - 1 then (S : Int) - 1
                   else ((i * segment_size : Nat) : Int) + (segment_size : Int) - 1
          file_path := partPath temp_dir filename i })

/-- A byte offset `b` lies in the (closed, possibly empty) range of a
segment. -/
def segInRange (s : DownloadSegment) (b : Int) : Prop :=
  s.start ≤ b ∧ b ≤ s.«end»

instance (s : DownloadSegment) (b : Int) : Decidable (segInRange s b) := by
  unfold segInRange; infer_instance

example :
    (create_segments (some 10) true 4 "t" "f").map (fun s => (s.start, s.«end»))
      = [(0, 1), (2, 3), (4, 5), (6, 9)] := by decide

example :
    (create_segments (some 1) true 4 "t" "f").map (fun s => (s.start, s.«end»))
      = [(0, -1), (0, -1), (0, -1), (0, 0)] := by decide

lemma create_segments_known (S N : Nat) (d f : String) (hS : 0 < S) (hN : 1 < N) :
    create_segments (some S) true N d f =
      (List.range N).map (fun i =>
        { id := i
          start := (i * (S / N) : Nat)
          «end» := if i = N - 1 then (S : Int) - 1
                   else ((i * (S / N) : Nat) : Int) + ((S / N : Nat) : Int) - 1
          file_path := partPath d f i }) := by
  have h1 : ¬ S = 0 := Nat.pos_iff_ne_zero.mp hS
  have h2 : ¬ N ≤ 1 := by omega
  simp [create_segments, h1, h2]

lemma create_segments_length (S N : Nat) (d f : String) (hS : 0 < S) (hN : 1 < N) :
    (create_segments (some S) true N d f).length = N := by
  rw [create_segments_known S N d f hS hN]; simp

lemma create_segments_get (S N : Nat) (d f : String) (hS : 0 < S) (hN : 1 < N)
    (i : Nat) (h : i < (create_segments (some S) true N d f).length) :
    (create_segments (some S) true N d f).get ⟨i, h⟩ =
      { id := i, start := (i * (S / N) : Nat),
        «end» := if i = N - 1 then (S : Int) - 1
                 else ((i * (S / N) : Nat) : Int) + ((S / N : Nat) : Int) - 1,
        file_path := partPath d f i } := by
  have hi : i < N := by
    have h' := h
    rwa [create_segments_length S N d f hS hN] at h'
  rw [List.get_eq_getElem, List.getElem_eq_iff]
  show (create_segments (some S) true N d f)[i]? = some _
  rw [create_segments_known S N d f hS hN]
  simp [List.getElem?_map, List.getElem?_range, hi]

lemma segmenter_cover_fwd (S N : Nat) (d f : String) (hS : 0 < S) (hN : 1 < N)
    (b : Int) (hb0 : 0 ≤ b) (hbS : b ≤ (S : Int) - 1) :
    ∃ (i : Nat) (h : i < (create_segments (some S) true N d f).length),
      segInRange ((create_segments (some S) true N d f).get ⟨i, h⟩) b := by
  have hlen := create_segments_length S N d f hS hN
  have hbnat : ((b.toNat : Int)) = b := Int.toNat_of_nonneg hb0
  by_cases hbase : S / N = 0
  · refine ⟨N - 1, by omega, ?_⟩
    rw [create_segments_get S N d f hS hN]
    constructor
    · show ((((N - 1) * (S / N) : Nat)) : Int) ≤ b
      rw [hbase]; simpa using hb0
    · show b ≤ (if N - 1 = N - 1 then (S : Int) - 1 else _)
      rw [if_pos rfl]; exact hbS
  · have hbasepos : 0 < S / N := Nat.pos_of_ne_zero hbase
    have hdm : S / N * (b.toNat / (S / N)) + b.toNat % (S / N) = b.toNat :=
      Nat.div_add_mod b.toNat (S / N)
    have hmlt : b.toNat % (S / N) < S / N := Nat.mod_lt _ hbasepos
    by_cases hq : b.toNat / (S / N) < N - 1
    · refine ⟨b.toNat / (S / N), by omega, ?_⟩
      rw [create_segments_get S N d f hS hN]
      constructor
      · show (((b.toNat / (S / N)) * (S / N) : Nat) : Int) ≤ b
        have h1 : b.toNat / (S / N) * (S / N) ≤ b.toNat := Nat.div_mul_le_self _ _
        push_cast
        push_cast at hbnat
        nlinarith [h1]
      · rw [if_neg (by omega)]
        have h2 : b.toNat < b.toNat / (S / N) * (S / N) + S / N := by nlinarith [hdm, hmlt]
        push_cast
        nlinarith [h2, hbnat]
    · refine ⟨N - 1, by omega, ?_⟩
      rw [create_segments_get S N d f hS hN]
      constructor
      · show ((((N - 1) * (S / N) : Nat)) : Int) ≤ b
        have h1 : (N - 1) * (S / N) ≤ b.toNat / (S / N) * (S / N) :=
          Nat.mul_le_mul_right _ (by omega)
        have h2 : b.toNat / (S / N) * (S / N) ≤ b.toNat := Nat.div_mul_le_self _ _
        push_cast
        nlinarith [h1, h2, hbnat]
      · rw [if_pos rfl]; exact hbS

lemma segmenter_cover_bwd (S N : Nat) (d f : String) (hS : 0 < S) (hN : 1 < N)
    (b : Int) (i : Nat) (h : i < (create_segments (some S) true N d f).length)
    (hin : segInRange ((create_segments (some S) true N d f).get ⟨i, h⟩) b) :
    0 ≤ b ∧ b ≤ (S : Int) - 1 := by
  have hi : i < N := by
    have h' := h
    rwa [create_segments_length S N d f hS hN] at h'
  rw [create_segments_get S N d f hS hN] at hin
  obtain ⟨h1, h2⟩ := hin
  simp only at h1 h2
  constructor
  · exact le_trans (by positivity) h1
  · by_cases hlast : i = N - 1
    · rwa [if_pos hlast] at h2
    · rw [if_neg hlast] at h2
      have hmul : (i + 1) * (S / N) ≤ N * (S / N) :=
        Nat.mul_le_mul_right _ (by omega)
      have hdiv : N * (S / N) ≤ S := Nat.mul_div_le S N
      have : ((i * (S / N) : Nat) : Int) + ((S / N : Nat) : Int) ≤ (S : Int) := by
        push_cast at hmul hdiv ⊢
        nlinarith [hmul, hdiv]
      linarith

lemma segmenter_disjoint_lt (S N : Nat) (d f : String) (hS : 0 < S) (hN : 1 < N)
    (i j : Nat) (hi : i < (create_segments (some S) true N d f).length)
    (hj : j < (create_segments (some S) true N d f).length) (hij : i < j) (b : Int) :
    ¬ (segInRange ((create_segments (some S) true N d f).get ⟨i, hi⟩) b ∧
       segInRange ((create_segments (some S) true N d f).get ⟨j, hj⟩) b) := by
  have hjN : j < N := by
    have h' := hj
    rwa [create_segments_length S N d f hS hN] at h'
  rintro ⟨⟨_, hbi⟩, ⟨hbj, _⟩⟩
  rw [create_segments_get S N d f hS hN] at hbi hbj
  simp only at hbi hbj
  rw [if_neg (by omega : ¬ i = N - 1)] at hbi
  -- end of segment i is strictly below the start of segment j
  have hmul : (i + 1) * (S / N) ≤ j * (S / N) := Nat.mul_le_mul_right _ (by omega)
  have : ((i * (S / N) : Nat) : Int) + ((S / N : Nat) : Int) ≤ ((j * (S / N) : Nat) : Int) := by
    push_cast at hmul ⊢
    nlinarith [hmul]
  linarith

/-- C1.  For a known total size `S > 0`, `N > 1` requested connections and
range support, `_create_segments` produces exactly `N` segments; segment
`i` starts at `i * (S / N)`; every segment but the last ends at
`(i + 1) * (S / N) - 1` and the last ends at `S - 1`; and the resulting
byte ranges are non-overlapping and cover `[0, S - 1]` exactly (which,
together with the explicit start/end formulas, makes them contiguous). -/
theorem create_segments_partition (S N : Nat) (d f : String) (hS : 0 < S) (hN : 1 < N) :
    (create_segments (some S) true N d f).length = N ∧
    (∀ (i : Nat) (h : i < (create_segments (some S) true N d f).length),
        ((create_segments (some S) true N d f).get ⟨i, h⟩).start = ((i * (S / N) : Nat) : Int) ∧
        (i < N - 1 →
          ((create_segments (some S) true N d f).get ⟨i, h⟩).«end»
            = (((i + 1) * (S / N) : Nat) : Int) - 1) ∧
        (i = N - 1 →
          ((create_segments (some S) true N d f).get ⟨i, h⟩).«end» = (S : Int) - 1)) ∧
    (∀ b : Int, (0 ≤ b ∧ b ≤ (S : Int) - 1) ↔
        ∃ (i : Nat) (h : i < (create_segments (some S) true N d f).length),
          segInRange ((create_segments (some S) true N d f).get ⟨i, h⟩) b) ∧
    (∀ (i j : Nat) (hi : i < (create_segments (some S) true N d f).length)
        (hj : j < (create_segments (some S) true N d f).length) (b : Int), i ≠ j →
        ¬ (segInRange ((create_segments (some S) true N d f).get ⟨i, hi⟩) b ∧
           segInRange ((create_segments (some S) true N d f).get ⟨j, hj⟩) b)) := by
  refine ⟨create_segments_length S N d f hS hN, ?_, ?_, ?_⟩
  · intro i h
    rw [create_segments_get S N d f hS hN]
    refine ⟨rfl, ?_, ?_⟩
    · intro hilt
      rw [if_neg (by omega : ¬ i = N - 1)]
      push_cast
      ring
    · intro hlast
      rw [if_pos hlast]
  · intro b
    constructor
    · rintro ⟨hb0, hbS⟩
      exact segmenter_cover_fwd S N d f hS hN b hb0 hbS
    · rintro ⟨i, h, hin⟩
      exact segmenter_cover_bwd S N d f hS hN b i h hin
  · intro i j hi hj b hne
    rcases Nat.lt_or_ge i j with hij | hij
    · exact segmenter_disjoint_lt S N d f hS hN i j hi hj hij b
    · have hji : j < i := by omega
      intro hcon
      exact segmenter_disjoint_lt S N d f hS hN j i hj hi hji b ⟨hcon.2, hcon.1⟩

/-- Witness for C1 at `S = 10_000_001`, `N = 4` (spec scenario 2, sizes
2_500_000 ×3 and 2_500_001). -/
theorem create_segments_partition_witness :
    0 < 10000001 ∧ 1 < 4 ∧
    ((create_segments (some 10000001) true 4 "t" "f").length = 4 ∧
    (∀ (i : Nat) (h : i < (create_segments (some 10000001) true 4 "t" "f").length),
        ((create_segments (some 10000001) true 4 "t" "f").get ⟨i, h⟩).start
          = ((i * (10000001 / 4) : Nat) : Int) ∧
        (i < 4 - 1 →
          ((create_segments (some 10000001) true 4 "t" "f").get ⟨i, h⟩).«end»
            = (((i + 1) * (10000001 / 4) : Nat) : Int) - 1) ∧
        (i = 4 - 1 →
          ((create_segments (some 10000001) true 4 "t" "f").get ⟨i, h⟩).«end»
            = (10000001 : Int) - 1)) ∧
    (∀ b : Int, (0 ≤ b ∧ b ≤ (10000001 : Int) - 1) ↔
        ∃ (i : Nat) (h : i < (create_segments (some 10000001) true 4 "t" "f").length),
          segInRange ((create_segments (some 10000001) true 4 "t" "f").get ⟨i, h⟩) b) ∧
    (∀ (i j : Nat) (hi : i < (create_segments (some 10000001) true 4 "t" "f").length)
        (hj : j < (create_segments (some 10000001) true 4 "t" "f").length) (b : Int), i ≠ j →
        ¬ (segInRange ((create_segments (some 10000001) true 4 "t" "f").get ⟨i, hi⟩) b ∧
           segInRange ((create_segments (some 10000001) true 4 "t" "f").get ⟨j, hj⟩) b))) :=
  ⟨by decide, by decide,
    create_segments_partition 10000001 4 "t" "f" (by decide) (by decide)⟩

/-- C6.  The failing input for the single-byte claim: a known total size
of `1` byte with range support and `N = 4` requested connections.  The
source's multi-connection branch runs with `segment_size = 1 // 4 = 0` and
emits four segments `(0, -1), (0, -1), (0, -1), (0, 0)` — not one segment
`[0, 0]`; the first three carry `end = -1`, which the rest of the code
interprets as the open-ended "download until end" sentinel.  Only for
`N ≤ 1` does a single `[0, 0]` segment appear. -/
theorem create_segments_single_byte_bug :
    (create_segments (some 1) true 4 "t" "f").length = 4 ∧
    (create_segments (some 1) true 4 "t" "f").map (fun s => (s.start, s.«end»))
      = [(0, -1), (0, -1), (0, -1), (0, 0)] ∧
    (create_segments (some 1) true 1 "t" "f").map (fun s => (s.start, s.«end»))
      = [(0, 0)] := by
  refine ⟨by decide, by decide, by decide⟩

/-! ## Segment streamer (`fetchx_cli/core/connection.py`,
`ConnectionManager.download_segment` and `_ultra_fast_download`)

One iteration of the `while retry_count <= self.max_retries` loop is
modelled as a step function.  What the network delivered during the
iteration is an `AttemptEvent`:

* `requestError` — `self._client.download_range(...)` (or the absence of a
  response) raised; in the source every such exception — including the
  `NetworkException` raised for HTTP 416 — lands in the generic
  `except Exception` branch;
* `streamBytes delta clean` — `_ultra_fast_download` appended `delta`
  bytes to the part-file; `clean = true` means the chunk loop reached
  end-of-stream and the function returned `True`, `clean = false` means it
  returned `False` (pause flag observed or an I/O error caught inside). -/

inductive AttemptEvent where
  | requestError : AttemptEvent
  | streamBytes (delta : Int) (clean : Bool) : AttemptEvent
deriving Repr, DecidableEq

/-- What the iteration did with the control flow of `download_segment`. -/
inductive StepOutcome where
  | completedOk : StepOutcome      -- `return True`
  | loopContinue : StepOutcome     -- fall through and iterate again, retry count unchanged
  | retryContinue : StepOutcome    -- exception was counted; iterate again after backoff
  | failedExhausted : StepOutcome  -- `raise ConnectionException(... failed after ... retries ...)`
deriving Repr, DecidableEq

/-- One iteration of `ConnectionManager.download_segment`'s retry loop.
Returns the outcome together with the updated segment and retry counter.
The float comparison `segment.downloaded >= expected_size * 0.99` is
modelled exactly as `100 * downloaded ≥ 99 * expected_size`. -/
def download_segment_step (max_retries : Nat) (retry_count : Nat)
    (seg : DownloadSegment) (ev : AttemptEvent) :
    StepOutcome × DownloadSegment × Nat :=
  if seg.is_paused then
    (.loopContinue, seg, retry_count)  -- quick pause check: sleep and continue
  else
    let current_start := seg.start + seg.downloaded
    if seg.«end» ≠ -1 ∧ current_start > seg.«end» then
      (.completedOk, { seg with completed := true }, retry_count)
    else
      match ev with
      | .requestError =>
          let rc := retry_count + 1
          if rc > max_retries then
            (.failedExhausted, { seg with retry_count := rc }, rc)
          else
            (.retryContinue, { seg with retry_count := rc }, rc)
      | .streamBytes delta clean =>
          let seg1 := { seg with downloaded := seg.downloaded + delta }
          if clean then
            if seg1.«end» ≠ -1 then
              let expected_size := seg1.«end» - seg1.start + 1
              if 100 * seg1.downloaded ≥ 99 * expected_size then
                (.completedOk, { seg1 with completed := true }, retry_count)
              else
                (.loopContinue, seg1, retry_count)
            else
              (.completedOk, { seg1 with completed := true }, retry_count)
          else
            (.loopContinue, seg1, retry_count)

lemma download_segment_step_streamOk (mr rc : Nat) (seg : DownloadSegment) (delta : Int)
    (hp : seg.is_paused = false)
    (hpre : seg.«end» ≠ -1 → ¬ seg.«end» < seg.start + seg.downloaded) :
    download_segment_step mr rc seg (.streamBytes delta true) =
      if seg.«end» ≠ -1 then
        (if 100 * (seg.downloaded + delta) ≥ 99 * (seg.«end» - seg.start + 1) then
          (.completedOk, { seg with downloaded := seg.downloaded + delta, completed := true }, rc)
        else
          (.loopContinue, { seg with downloaded := seg.downloaded + delta }, rc))
      else
        (.completedOk, { seg with downloaded := seg.downloaded + delta, completed := true }, rc) := by
  by_cases hclosed : seg.«end» = -1
  · simp [download_segment_step, hp, hclosed]
  · simp [download_segment_step, hp, hpre hclosed, hclosed]

/-- C4.  End-of-stream handling in `download_segment`: for a segment with
a closed range that was not already past its end, the segment is marked
complete (and the loop returns `True`) iff the accumulated bytes reach
99 % of `end - start + 1`; strictly below that tolerance the segment stays
incomplete and the loop runs again (a re-attempt) without consuming a
retry.  For an open-ended segment (`end = -1`), end-of-stream always marks
it complete. -/
theorem segment_completion_tolerance (mr rc : Nat) (seg : DownloadSegment) (delta : Int)
    (hp : seg.is_paused = false) (hc : seg.completed = false) :
    (seg.«end» ≠ -1 → seg.start + seg.downloaded ≤ seg.«end» →
      ((((download_segment_step mr rc seg (.streamBytes delta true)).2.1.completed = true) ∧
        (download_segment_step mr rc seg (.streamBytes delta true)).1 = .completedOk) ↔
        100 * (seg.downloaded + delta) ≥ 99 * (seg.«end» - seg.start + 1)) ∧
      (100 * (seg.downloaded + delta) < 99 * (seg.«end» - seg.start + 1) →
        (download_segment_step mr rc seg (.streamBytes delta true)).1 = .loopContinue ∧
        (download_segment_step mr rc seg (.streamBytes delta true)).2.1.completed = false ∧
        (download_segment_step mr rc seg (.streamBytes delta true)).2.2 = rc)) ∧
    (seg.«end» = -1 →
      (download_segment_step mr rc seg (.streamBytes delta true)).1 = .completedOk ∧
      (download_segment_step mr rc seg (.streamBytes delta true)).2.1.completed = true) := by
  constructor
  · intro hclosed hpre
    rw [download_segment_step_streamOk mr rc seg delta hp (fun _ => by omega), if_pos hclosed]
    by_cases hge : 100 * (seg.downloaded + delta) ≥ 99 * (seg.«end» - seg.start + 1)
    · rw [if_pos hge]
      exact ⟨⟨fun _ => hge, fun _ => ⟨rfl, rfl⟩⟩, fun hlt => absurd hge (by omega)⟩
    · rw [if_neg hge]
      refine ⟨⟨?_, fun h => absurd h hge⟩, fun _ => ⟨rfl, hc, rfl⟩⟩
      rintro ⟨hcompl, _⟩
      simp [hc] at hcompl
  · intro hopen
    rw [download_segment_step_streamOk mr rc seg delta hp (fun hne => absurd hopen hne)]
    rw [if_neg (by simp [hopen])]
    exact ⟨rfl, rfl⟩

/-- Witness for C4 at a concrete closed-range segment `[0, 99]` with 99
bytes delivered (within tolerance) — hypotheses discharged at
`mr = 3`, `rc = 0`, `delta = 99`. -/
theorem segment_completion_tolerance_witness :
    (({ id := 0, start := 0, «end» := 99, file_path := "p" } :
        DownloadSegment).is_paused = false) ∧
    (({ id := 0, start := 0, «end» := 99, file_path := "p" } :
        DownloadSegment).completed = false) ∧
    (((99 : Int) ≠ -1 → (0 : Int) + 0 ≤ 99 →
      ((((download_segment_step 3 0 { id := 0, start := 0, «end» := 99, file_path := "p" }
            (.streamBytes 99 true)).2.1.completed = true) ∧
        (download_segment_step 3 0 { id := 0, start := 0, «end» := 99, file_path := "p" }
            (.streamBytes 99 true)).1 = .completedOk) ↔
        100 * ((0 : Int) + 99) ≥ 99 * ((99 : Int) - 0 + 1)) ∧
      (100 * ((0 : Int) + 99) < 99 * ((99 : Int) - 0 + 1) →
        (download_segment_step 3 0 { id := 0, start := 0, «end» := 99, file_path := "p" }
            (.streamBytes 99 true)).1 = .loopContinue ∧
        (download_segment_step 3 0 { id := 0, start := 0, «end» := 99, file_path := "p" }
            (.streamBytes 99 true)).2.1.completed = false ∧
        (download_segment_step 3 0 { id := 0, start := 0, «end» := 99, file_path := "p" }
            (.streamBytes 99 true)).2.2 = 0)) ∧
    ((99 : Int) = -1 →
      (download_segment_step 3 0 { id := 0, start := 0, «end» := 99, file_path := "p" }
          (.streamBytes 99 true)).1 = .completedOk ∧
      (download_segment_step 3 0 { id := 0, start := 0, «end» := 99, file_path := "p" }
          (.streamBytes 99 true)).2.1.completed = true)) :=
  ⟨by decide, by decide,
    segment_completion_tolerance 3 0 { id := 0, start := 0, «end» := 99, file_path := "p" }
      99 (by decide) (by decide)⟩

/-! ## Range fetch error classification (`fetchx_cli/utils/network.py`,
`HttpClient.download_range`)

The source raises `AuthenticationException` for 401 and
`NetworkException` both for 416 ("Range not satisfiable") and for every
other non-200/206 status; the exception classes live in
`utils/exceptions.py`.  A distinct `RangeNotSupportedException` class
exists there but `download_range` never raises it. -/

inductive HttpFailure where
  | authenticationException (msg : String)
  | networkException (msg : String)
deriving Repr, DecidableEq

/-- Status handling of `HttpClient.download_range` after the GET
returns. -/
def download_range_check (status : Nat) : Except HttpFailure Unit :=
  if status = 401 then .error (.authenticationException "Authentication required")
  else if status = 416 then .error (.networkException "Range not satisfiable")
  else if ¬ (status = 200 ∨ status = 206) then
    .error (.networkException ("HTTP " ++ toString status))
  else .ok ()

/-- C7 counterexample.  At HTTP status 416 the code raises a
`NetworkException` — the very same error kind as a retryable 5xx — and
`download_segment`'s generic `except Exception` branch then retries the
attempt (outcome `retryContinue`, retry count 1 of 3) instead of failing
immediately.  No `RangeError`-kind value exists on this path. -/
theorem range_416_retried_counterexample :
    download_range_check 416 = .error (.networkException "Range not satisfiable") ∧
    download_range_check 503 = .error (.networkException ("HTTP " ++ toString 503)) ∧
    (download_segment_step 3 0 { id := 0, start := 0, «end» := 9, file_path := "p" }
        .requestError).1 = .retryContinue ∧
    (download_segment_step 3 0 { id := 0, start := 0, «end» := 9, file_path := "p" }
        .requestError).2.1.retry_count = 1 := by
  refine ⟨rfl, rfl, by decide, by decide⟩

/-- C7 amended.  416 on a range request raises a `NetworkException` (the
same kind as transport errors and 5xx), and the segment streamer treats
every such exception as retryable: while `retry_count < max_retries` the
attempt is retried with an incremented counter, and only when the budget
is exhausted does the segment fail. -/
theorem range_416_network_retryable (mr rc : Nat) (seg : DownloadSegment)
    (hp : seg.is_paused = false)
    (hpre : seg.«end» ≠ -1 → ¬ seg.«end» < seg.start + seg.downloaded) :
    download_range_check 416 = .error (.networkException "Range not satisfiable") ∧
    (∃ m, download_range_check 500 = .error (.networkException m)) ∧
    (rc < mr →
      (download_segment_step mr rc seg .requestError).1 = .retryContinue ∧
      (download_segment_step mr rc seg .requestError).2.2 = rc + 1) ∧
    (mr ≤ rc →
      (download_segment_step mr rc seg .requestError).1 = .failedExhausted) := by
  have hnot : ¬ (seg.«end» ≠ -1 ∧ seg.start + seg.downloaded > seg.«end») := by
    rintro ⟨hne, hgt⟩; exact hpre hne (by omega)
  refine ⟨rfl, ⟨"HTTP " ++ toString 500, rfl⟩, ?_, ?_⟩
  · intro hlt
    have h1 : ¬ rc + 1 > mr := by omega
    simp [download_segment_step, hp, hnot, h1]
  · intro hge
    have h1 : rc + 1 > mr := by omega
    simp [download_segment_step, hp, hnot, h1]

/-- Witness for the amended C7 at `mr = 3`, `rc = 0` and a fresh closed
segment `[0, 9]`. -/
theorem range_416_network_retryable_witness :
    (({ id := 0, start := 0, «end» := 9, file_path := "q" } :
        DownloadSegment).is_paused = false) ∧
    ((({ id := 0, start := 0, «end» := 9, file_path := "q" } :
        DownloadSegment).«end» ≠ -1 → ¬ (9 : Int) < 0 + 0)) ∧
    (download_range_check 416 = .error (.networkException "Range not satisfiable") ∧
    (∃ m, download_range_check 500 = .error (.networkException m)) ∧
    ((0 : Nat) < 3 →
      (download_segment_step 3 0 { id := 0, start := 0, «end» := 9, file_path := "q" }
          .requestError).1 = .retryContinue ∧
      (download_segment_step 3 0 { id := 0, start := 0, «end» := 9, file_path := "q" }
          .requestError).2.2 = 0 + 1) ∧
    ((3 : Nat) ≤ 0 →
      (download_segment_step 3 0 { id := 0, start := 0, «end» := 9, file_path := "q" }
          .requestError).1 = .failedExhausted)) :=
  ⟨by decide, by decide,
    range_416_network_retryable 3 0 { id := 0, start := 0, «end» := 9, file_path := "q" }
      (by decide) (by decide)⟩

/-! ## Resume re-measurement (`fetchx_cli/core/downloader.py`,
`EnhancedDownloader.resume`, the per-segment loop)

For each segment, `resume` checks `os.path.exists(segment.file_path)`;
when the part-file exists it reads `file_size = os.path.getsize(...)`,
computes `expected_size = end - start + 1` for a closed range (and
`file_size` itself for the open-ended sentinel `end = -1`), then — per the
source comment "ALWAYS update the downloaded amount to the current file
size" — sets `segment.downloaded = file_size` unclamped and marks the
segment completed iff `file_size >= expected_size * 0.99`.  When the file
is missing it sets `downloaded = 0`, `completed = False`. -/
def resume_remeasure (seg : DownloadSegment) (file_size : Option Int) : DownloadSegment :=
  match file_size with
  | some sz =>
      let expected_size := if seg.«end» ≠ -1 then seg.«end» - seg.start + 1 else sz
      { seg with downloaded := sz,
                 completed := decide (100 * sz ≥ 99 * expected_size) }
  | none => { seg with downloaded := 0, completed := false }

/-- The per-download loop over all segments, looking each part-file up on
disk. -/
def resume_remeasure_all (segs : List DownloadSegment)
    (disk : String → Option Int) : List DownloadSegment :=
  segs.map (fun s => resume_remeasure s (disk s.file_path))

/-- C3 counterexample.  Segment `[0, 9]` (expected size 10) with an
over-long on-disk part-file of 15 bytes: `resume` sets `downloaded = 15`,
not `min(15, 10) = 10`, so after re-measurement `downloaded` exceeds the
segment's expected size. -/
theorem resume_remeasure_counterexample :
    (resume_remeasure { id := 0, start := 0, «end» := 9, file_path := "p" }
        (some 15)).downloaded = 15 ∧
    min (15 : Int) ((9 : Int) - 0 + 1) = 10 ∧
    ((9 : Int) - 0 + 1) <
      (resume_remeasure { id := 0, start := 0, «end» := 9, file_path := "p" }
        (some 15)).downloaded := by
  refine ⟨by decide, by decide, by decide⟩

/-- C3 amended.  On resume, a segment whose part-file exists has its
`downloaded` field reset to the on-disk file size, unclamped; this equals
`min(file_size, expected_size)` whenever the file is no larger than
expected, but exceeds the expected size when the part-file is over-long.
The segment is marked complete iff the file size reaches 99 % of the
expected size; a missing part-file resets `downloaded` to 0.  For an
open-ended segment a non-negative on-disk size always marks it
complete. -/
theorem resume_remeasure_spec (seg : DownloadSegment) (sz : Int)
    (hclosed : seg.«end» ≠ -1) :
    (resume_remeasure seg (some sz)).downloaded = sz ∧
    (sz ≤ seg.«end» - seg.start + 1 →
      (resume_remeasure seg (some sz)).downloaded
        = min sz (seg.«end» - seg.start + 1)) ∧
    ((resume_remeasure seg (some sz)).completed = true ↔
      100 * sz ≥ 99 * (seg.«end» - seg.start + 1)) ∧
    (resume_remeasure seg none).downloaded = 0 ∧
    (resume_remeasure seg none).completed = false := by
  refine ⟨rfl, ?_, ?_, rfl, rfl⟩
  · intro hle
    simp [resume_remeasure, min_eq_left hle]
  · simp [resume_remeasure, hclosed]

/-- Witness for the amended C3 at segment `[0, 9]` with a 7-byte
part-file. -/
theorem resume_remeasure_spec_witness :
    (({ id := 0, start := 0, «end» := 9, file_path := "w" } :
        DownloadSegment).«end» ≠ -1) ∧
    ((resume_remeasure { id := 0, start := 0, «end» := 9, file_path := "w" }
        (some 7)).downloaded = 7 ∧
    ((7 : Int) ≤ (9 : Int) - 0 + 1 →
      (resume_remeasure { id := 0, start := 0, «end» := 9, file_path := "w" }
          (some 7)).downloaded = min (7 : Int) ((9 : Int) - 0 + 1)) ∧
    ((resume_remeasure { id := 0, start := 0, «end» := 9, file_path := "w" }
        (some 7)).completed = true ↔ 100 * (7 : Int) ≥ 99 * ((9 : Int) - 0 + 1)) ∧
    (resume_remeasure { id := 0, start := 0, «end» := 9, file_path := "w" }
        none).downloaded = 0 ∧
    (resume_remeasure { id := 0, start := 0, «end» := 9, file_path := "w" }
        none).completed = false) :=
  ⟨by decide,
    resume_remeasure_spec { id := 0, start := 0, «end» := 9, file_path := "w" } 7
      (by decide)⟩

/-! ## Merger (`fetchx_cli/core/merger.py`, `FileMerger`)

File systems are partial maps from path to byte content.  All three merge
strategies (`_merge_sync`, `_merge_async`, `_merge_streaming`) share the
same structure: sort the part list by the numeric suffix after the last
`".part"`, stream-concatenate into `output_file + ".tmp"`, fsync, verify
the temp file's size against the sum of the part sizes (`_verify_merge`),
rename the temp over the output, and only then delete the part-files; any
exception deletes the temp file and leaves the parts untouched. -/

/-- A file system: path → byte content. -/
def Fs : Type := String → Option (List Nat)

/-- Write (or delete, with `none`) one path. -/
def fsSet (fs : Fs) (p : String) (v : Option (List Nat)) : Fs :=
  fun q => if q = p then v else fs q

/-- Best-effort `os.remove` over a list of paths (`_cleanup_parts`). -/
def fsRemoveAll (fs : Fs) (ps : List String) : Fs :=
  fun q => if q ∈ ps then none else fs q

/-- `os.path.getsize` (0 for a missing file; the model only reads sizes of
files known to exist). -/
def fileSize (fs : Fs) (p : String) : Nat := ((fs p).getD []).length

/-- The byte content after the last occurrence of `sep` in `s`, if `sep`
occurs at all.  For a separator with no self-overlap (such as `".part"`)
this is exactly the last component of Python's `s.split(sep)`. -/
def afterLastSep (sep : List Char) : List Char → Option (List Char)
  | [] => none
  | c :: rest =>
    match afterLastSep sep rest with
    | some r => some r
    | none =>
        if sep.isPrefixOf (c :: rest) then some ((c :: rest).drop sep.length)
        else none

/-- Python `int(s)` restricted to plain decimal digit strings (the only
form the segmenter's `.part<i>` naming produces); other strings raise, so
the model returns `none`. -/
def pyIntDigits (cs : List Char) : Option Nat :=
  if cs ≠ [] ∧ cs.all Char.isDigit then
    some (cs.foldl (fun acc c => 10 * acc + (c.toNat - '0'.toNat)) 0)
  else none

/-- The sort key `int(x.split(".part")[-1])` used by every merge
strategy. -/
def partKey (x : String) : Option Nat :=
  (afterLastSep ".part".data x.data).bind pyIntDigits

/-- The key with the `none` (exception) case defaulted; under the claims'
hypotheses every key parses, so the default is never reached. -/
def partKeyD (x : String) : Nat := (partKey x).getD 0

/-- `sorted(part_files, key=lambda x: int(x.split(".part")[-1]))`.
Python's `sorted` is a stable sort; `List.insertionSort` with the
non-strict key order is stable, and under the distinct-key hypotheses of
the claims every correct sort agrees. -/
def sortParts (part_files : List String) : List String :=
  List.insertionSort (fun a b => partKeyD a ≤ partKeyD b) part_files

/-- The byte content the chunked read/write loop of any strategy leaves
in the temp file when no I/O fault occurs: the concatenation of the part
contents in sorted order. -/
def writeLoopContent (fs : Fs) (sorted_parts : List String) : List Nat :=
  sorted_parts.flatMap (fun p => (fs p).getD [])

/-- Outcome of a merge run: success, `FileException` for missing parts
(raised in `merge_parts` before anything is written), or the
`FileException("Merged file size mismatch ...")` from `_verify_merge`. -/
inductive MergeOutcome where
  | ok : MergeOutcome
  | errorMissing : MergeOutcome
  | errorMismatch : MergeOutcome
deriving Repr, DecidableEq

/-- `FileMerger.merge_parts` followed by the shared
write/verify/promote/cleanup pipeline of the selected strategy.  The
content that actually reached the temp file is the explicit parameter
`tmpContent` (I/O may fall short); a fault-free run has
`tmpContent = writeLoopContent fs sorted`. -/
def merge_parts_model (fs : Fs) (part_files : List String) (output_file : String)
    (tmpContent : List Nat) : MergeOutcome × Fs :=
  if part_files = [] ∨ part_files.any (fun p => (fs p).isNone) then
    (.errorMissing, fs)
  else
    let sorted := sortParts part_files
    let tmp := output_file ++ ".tmp"
    let fs1 := fsSet fs tmp (some tmpContent)
    let expected_size := (sorted.map (fileSize fs1)).sum
    if fileSize fs1 tmp ≠ expected_size then
      (.errorMismatch, fsSet fs1 tmp none)
    else
      let fs2 := fsSet (fsSet fs1 tmp none) output_file (some tmpContent)
      (.ok, fsRemoveAll fs2 sorted)

example : sortParts ["d/f.part2", "d/f.part0", "d/f.part10", "d/f.part1"]
    = ["d/f.part0", "d/f.part1", "d/f.part2", "d/f.part10"] := by decide

example : partKey "d/f.part17" = some 17 := by decide

lemma self_ne_append_tmp (s : String) : s ≠ s ++ ".tmp" := by
  intro h
  have hlen := congrArg String.length h
  rw [String.length_append] at hlen
  have h4 : ".tmp".length = 4 := rfl
  omega

lemma merge_guard_false (fs : Fs) (parts : List String)
    (hne : parts ≠ []) (hex : ∀ p ∈ parts, (fs p).isSome) :
    ¬ (parts = [] ∨ parts.any (fun p => (fs p).isNone)) := by
  rintro (h | h)
  · exact hne h
  · obtain ⟨p, hp, hnone⟩ := List.any_eq_true.mp h
    have := hex p hp
    simp [Option.isNone_iff_eq_none] at hnone
    simp [hnone] at this

lemma sortParts_perm (parts : List String) : (sortParts parts).Perm parts :=
  List.perm_insertionSort _ _

/-- C2.  The merge pipeline either produces an output whose length equals
the sum of the part-file lengths, or raises a `MergeError`-kind
`FileException`; on a size mismatch detected by `_verify_merge` (before
the rename into place) the `.tmp` file is deleted and every part-file is
retained; part-files are deleted only in the success case, after
verification and rename; and a fault-free write (temp content =
concatenation of the parts in sorted order) always verifies. -/
theorem merge_length_verified (fs : Fs) (parts : List String) (output : String)
    (tmpContent : List Nat)
    (hne : parts ≠ [])
    (hex : ∀ p ∈ parts, (fs p).isSome)
    (htmp : (output ++ ".tmp") ∉ parts)
    (hout : output ∉ parts) :
    ((merge_parts_model fs parts output tmpContent).1 = .ok →
      fileSize (merge_parts_model fs parts output tmpContent).2 output
        = (parts.map (fileSize fs)).sum) ∧
    ((merge_parts_model fs parts output tmpContent).1 = .errorMismatch →
      (merge_parts_model fs parts output tmpContent).2 (output ++ ".tmp") = none ∧
      ∀ p ∈ parts, (merge_parts_model fs parts output tmpContent).2 p = fs p) ∧
    ((merge_parts_model fs parts output tmpContent).1 ≠ .ok →
      ∀ p ∈ parts, (merge_parts_model fs parts output tmpContent).2 p = fs p) ∧
    ((merge_parts_model fs parts output tmpContent).1 = .ok →
      ∀ p ∈ parts, (merge_parts_model fs parts output tmpContent).2 p = none) ∧
    (tmpContent = writeLoopContent fs (sortParts parts) →
      (merge_parts_model fs parts output tmpContent).1 = .ok) := by
  have hguard := merge_guard_false fs parts hne hex
  have hperm := sortParts_perm parts
  have hmemsort : ∀ p, p ∈ sortParts parts ↔ p ∈ parts := fun p => hperm.mem_iff
  -- the temp write does not disturb the part files
  have hfs1 : ∀ p ∈ parts,
      fsSet fs (output ++ ".tmp") (some tmpContent) p = fs p := by
    intro p hp
    have : p ≠ output ++ ".tmp" := fun h => htmp (h ▸ hp)
    simp [fsSet, this]
  have hsize1 : ∀ p ∈ parts,
      fileSize (fsSet fs (output ++ ".tmp") (some tmpContent)) p = fileSize fs p := by
    intro p hp
    simp [fileSize, hfs1 p hp]
  have hsum0 :
      ((sortParts parts).map (fileSize (fsSet fs (output ++ ".tmp") (some tmpContent)))).sum
        = ((sortParts parts).map (fileSize fs)).sum := by
    congr 1
    apply List.map_congr_left
    intro p hp
    exact hsize1 p ((hmemsort p).mp hp)
  have hsum : ((sortParts parts).map
      (fileSize (fsSet fs (output ++ ".tmp") (some tmpContent)))).sum
        = (parts.map (fileSize fs)).sum :=
    hsum0.trans (hperm.map (fileSize fs)).sum_eq
  have htmpsize :
      fileSize (fsSet fs (output ++ ".tmp") (some tmpContent)) (output ++ ".tmp")
        = tmpContent.length := by
    simp [fileSize, fsSet]
  by_cases hver : fileSize (fsSet fs (output ++ ".tmp") (some tmpContent)) (output ++ ".tmp")
      = ((sortParts parts).map (fileSize (fsSet fs (output ++ ".tmp") (some tmpContent)))).sum
  · -- verification succeeds: the ok branch
    have hres : merge_parts_model fs parts output tmpContent =
        (.ok, fsRemoveAll
          (fsSet (fsSet (fsSet fs (output ++ ".tmp") (some tmpContent))
            (output ++ ".tmp") none) output (some tmpContent)) (sortParts parts)) := by
      unfold merge_parts_model
      rw [if_neg hguard, if_neg (by simpa using hver)]
    rw [hres]
    refine ⟨?_, by simp, by simp, ?_, fun _ => rfl⟩
    · intro _
      have houtsort : output ∉ sortParts parts := fun h => hout ((hmemsort output).mp h)
      have hovalue : (fsRemoveAll
          (fsSet (fsSet (fsSet fs (output ++ ".tmp") (some tmpContent))
            (output ++ ".tmp") none) output (some tmpContent)) (sortParts parts)) output
          = some tmpContent := by
        simp [fsRemoveAll, fsSet, houtsort]
      show (((fsRemoveAll
          (fsSet (fsSet (fsSet fs (output ++ ".tmp") (some tmpContent))
            (output ++ ".tmp") none) output (some tmpContent)) (sortParts parts)) output).getD
              []).length = (parts.map (fileSize fs)).sum
      rw [hovalue]
      show tmpContent.length = _
      rw [← htmpsize, hver, hsum]
    · intro _ p hp
      have : p ∈ sortParts parts := (hmemsort p).mpr hp
      simp [fsRemoveAll, this]
  · -- verification fails: the mismatch branch
    have hres : merge_parts_model fs parts output tmpContent =
        (.errorMismatch,
          fsSet (fsSet fs (output ++ ".tmp") (some tmpContent)) (output ++ ".tmp") none) := by
      unfold merge_parts_model
      rw [if_neg hguard, if_pos (by simpa using hver)]
    rw [hres]
    refine ⟨by simp, ?_, ?_, by simp, ?_⟩
    · intro _
      refine ⟨by simp [fsSet], ?_⟩
      intro p hp
      have hne' : p ≠ output ++ ".tmp" := fun h => htmp (h ▸ hp)
      simp [fsSet, hne']
    · intro _ p hp
      have hne' : p ≠ output ++ ".tmp" := fun h => htmp (h ▸ hp)
      simp [fsSet, hne']
    · intro hfree
      exfalso
      apply hver
      rw [htmpsize, hsum0, hfree]
      unfold writeLoopContent
      rw [List.length_flatMap]
      rfl

/-- A two-part file system for the C2 witness. -/
def mergeWitnessFs : Fs := fun q =>
  if q = "a/f.part0" then some [10, 11]
  else if q = "a/f.part1" then some [12] else none

/-- Witness for C2: parts given out of order, fault-free temp content
`[10, 11, 12]`. -/
theorem merge_length_verified_witness :
    ((["a/f.part1", "a/f.part0"] : List String) ≠ []) ∧
    (∀ p ∈ (["a/f.part1", "a/f.part0"] : List String), (mergeWitnessFs p).isSome) ∧
    (("a/f" ++ ".tmp") ∉ (["a/f.part1", "a/f.part0"] : List String)) ∧
    ("a/f" ∉ (["a/f.part1", "a/f.part0"] : List String)) ∧
    (((merge_parts_model mergeWitnessFs ["a/f.part1", "a/f.part0"] "a/f" [10, 11, 12]).1 = .ok →
      fileSize (merge_parts_model mergeWitnessFs ["a/f.part1", "a/f.part0"] "a/f" [10, 11, 12]).2 "a/f"
        = ((["a/f.part1", "a/f.part0"] : List String).map (fileSize mergeWitnessFs)).sum) ∧
    ((merge_parts_model mergeWitnessFs ["a/f.part1", "a/f.part0"] "a/f" [10, 11, 12]).1 = .errorMismatch →
      (merge_parts_model mergeWitnessFs ["a/f.part1", "a/f.part0"] "a/f" [10, 11, 12]).2 ("a/f" ++ ".tmp") = none ∧
      ∀ p ∈ (["a/f.part1", "a/f.part0"] : List String),
        (merge_parts_model mergeWitnessFs ["a/f.part1", "a/f.part0"] "a/f" [10, 11, 12]).2 p = mergeWitnessFs p) ∧
    ((merge_parts_model mergeWitnessFs ["a/f.part1", "a/f.part0"] "a/f" [10, 11, 12]).1 ≠ .ok →
      ∀ p ∈ (["a/f.part1", "a/f.part0"] : List String),
        (merge_parts_model mergeWitnessFs ["a/f.part1", "a/f.part0"] "a/f" [10, 11, 12]).2 p = mergeWitnessFs p) ∧
    ((merge_parts_model mergeWitnessFs ["a/f.part1", "a/f.part0"] "a/f" [10, 11, 12]).1 = .ok →
      ∀ p ∈ (["a/f.part1", "a/f.part0"] : List String),
        (merge_parts_model mergeWitnessFs ["a/f.part1", "a/f.part0"] "a/f" [10, 11, 12]).2 p = none) ∧
    ([10, 11, 12] = writeLoopContent mergeWitnessFs (sortParts ["a/f.part1", "a/f.part0"]) →
      (merge_parts_model mergeWitnessFs ["a/f.part1", "a/f.part0"] "a/f" [10, 11, 12]).1 = .ok)) :=
  ⟨by decide, by decide, by decide, by decide,
    merge_length_verified mergeWitnessFs ["a/f.part1", "a/f.part0"] "a/f" [10, 11, 12]
      (by decide) (by decide) (by decide) (by decide)⟩

lemma pairwise_key_ne (parts : List String)
    (hsome : ∀ p ∈ parts, (partKey p).isSome)
    (hnd : (parts.map partKey).Nodup) :
    parts.Pairwise (fun a b => partKeyD a ≠ partKeyD b) := by
  have h1 : parts.Pairwise (fun a b => partKey a ≠ partKey b) :=
    List.pairwise_map.mp hnd
  refine h1.imp_of_mem ?_
  intro a b ha hb hne heq
  obtain ⟨ka, hka⟩ := Option.isSome_iff_exists.mp (hsome a ha)
  obtain ⟨kb, hkb⟩ := Option.isSome_iff_exists.mp (hsome b hb)
  apply hne
  rw [hka, hkb]
  have : ka = kb := by
    have h2 := heq
    unfold partKeyD at h2
    rw [hka, hkb] at h2
    simpa using h2
  rw [this]

lemma sortParts_pairwise_lt (parts : List String)
    (hsome : ∀ p ∈ parts, (partKey p).isSome)
    (hnd : (parts.map partKey).Nodup) :
    (sortParts parts).Pairwise (fun a b => partKeyD a < partKeyD b) := by
  haveI : IsTotal String (fun a b => partKeyD a ≤ partKeyD b) :=
    ⟨fun a b => Nat.le_total _ _⟩
  haveI : IsTrans String (fun a b => partKeyD a ≤ partKeyD b) :=
    ⟨fun _ _ _ h1 h2 => Nat.le_trans h1 h2⟩
  have hle : (sortParts parts).Pairwise (fun a b => partKeyD a ≤ partKeyD b) :=
    List.sorted_insertionSort _ parts
  have hne : (sortParts parts).Pairwise (fun a b => partKeyD a ≠ partKeyD b) := by
    refine (List.Perm.pairwise_iff (fun h heq => h heq.symm) (sortParts_perm parts)).mpr ?_
    exact pairwise_key_ne parts hsome hnd
  exact (hle.and hne).imp (fun h => lt_of_le_of_ne h.1 h.2)

/-- C10.  For part lists whose `.part<i>` indices all parse and are
pairwise distinct, every merge strategy's sorted order — and hence the
merged byte content and the entire merge run — is independent of the
order in which the part list is supplied. -/
theorem merge_order_independence (fs : Fs) (parts parts' : List String)
    (output : String) (tmpContent : List Nat)
    (hperm : parts.Perm parts')
    (hsome : ∀ p ∈ parts, (partKey p).isSome)
    (hnd : (parts.map partKey).Nodup) :
    sortParts parts = sortParts parts' ∧
    writeLoopContent fs (sortParts parts) = writeLoopContent fs (sortParts parts') ∧
    merge_parts_model fs parts output tmpContent
      = merge_parts_model fs parts' output tmpContent := by
  have hsome' : ∀ p ∈ parts', (partKey p).isSome := fun p hp =>
    hsome p (hperm.mem_iff.mpr hp)
  have hnd' : (parts'.map partKey).Nodup := ((hperm.map partKey).nodup_iff).mp hnd
  haveI : IsAntisymm String (fun a b => partKeyD a < partKeyD b) :=
    ⟨fun a b h1 h2 => absurd (lt_trans h1 h2) (lt_irrefl _)⟩
  have hsortEq : sortParts parts = sortParts parts' := by
    apply List.eq_of_perm_of_sorted (r := fun a b => partKeyD a < partKeyD b)
    · exact ((sortParts_perm parts).trans hperm).trans (sortParts_perm parts').symm
    · exact sortParts_pairwise_lt parts hsome hnd
    · exact sortParts_pairwise_lt parts' hsome' hnd'
  refine ⟨hsortEq, by rw [hsortEq], ?_⟩
  have hnil : (parts = []) ↔ (parts' = []) := by
    constructor
    · intro h; subst h; exact hperm.nil_eq.symm
    · intro h; subst h; exact hperm.symm.nil_eq.symm
  have hany : parts.any (fun p => (fs p).isNone)
      = parts'.any (fun p => (fs p).isNone) := by
    cases h : parts'.any (fun p => (fs p).isNone) with
    | false =>
        rw [List.any_eq_false] at h ⊢
        intro p hp
        exact h p (hperm.mem_iff.mp hp)
    | true =>
        rw [List.any_eq_true] at h ⊢
        obtain ⟨p, hp, hval⟩ := h
        exact ⟨p, hperm.mem_iff.mpr hp, hval⟩
  unfold merge_parts_model
  rw [hsortEq]
  by_cases hguard : parts' = [] ∨ parts'.any (fun p => (fs p).isNone)
  · rw [if_pos hguard, if_pos (by rw [hnil, hany]; exact hguard)]
  · rw [if_neg hguard, if_neg (by rw [hnil, hany]; exact hguard)]

/-- Witness for C10 at two permutations of a three-part list. -/
theorem merge_order_independence_witness :
    ((["g.part2", "g.part0", "g.part1"] : List String).Perm
        ["g.part0", "g.part1", "g.part2"]) ∧
    (∀ p ∈ (["g.part2", "g.part0", "g.part1"] : List String), (partKey p).isSome) ∧
    ((["g.part2", "g.part0", "g.part1"] : List String).map partKey).Nodup ∧
    (sortParts ["g.part2", "g.part0", "g.part1"]
        = sortParts ["g.part0", "g.part1", "g.part2"] ∧
    writeLoopContent mergeWitnessFs (sortParts ["g.part2", "g.part0", "g.part1"])
        = writeLoopContent mergeWitnessFs (sortParts ["g.part0", "g.part1", "g.part2"]) ∧
    merge_parts_model mergeWitnessFs ["g.part2", "g.part0", "g.part1"] "g" []
        = merge_parts_model mergeWitnessFs ["g.part0", "g.part1", "g.part2"] "g" []) :=
  ⟨by decide, by decide, by decide,
    merge_order_independence mergeWitnessFs ["g.part2", "g.part0", "g.part1"]
      ["g.part0", "g.part1", "g.part2"] "g" [] (by decide) (by decide) (by decide)⟩

/-! ## Filename sanitization (`fetchx_cli/utils/file_utils.py`,
`FileManager.sanitize_filename`)

Strings are modelled as `List Char`.  The source replaces each of the
characters `<>:"/\|?*` by `_`, strips leading/trailing `.` and space,
substitutes `"download"` for an empty result, and finally, when more than
250 characters remain, truncates via
`name, ext = os.path.splitext(filename); filename = name[:250-len(ext)] + ext`
— note that the slice bound `250 - len(ext)` is a Python slice and may be
negative. -/

def invalid_chars : List Char := ['<', '>', ':', '"', '/', '\\', '|', '?', '*']

/-- The `filename.replace(char, '_')` loop over `invalid_chars`. -/
def replaceInvalid (s : List Char) : List Char :=
  s.map (fun c => if c ∈ invalid_chars then '_' else c)

/-- Characters removed by `filename.strip('. ')`. -/
def isStripped (c : Char) : Bool := c = '.' || c = ' '

/-- `filename.strip('. ')`: drop the stripped characters from both
ends. -/
def pyStrip (s : List Char) : List Char :=
  ((s.dropWhile isStripped).reverse.dropWhile isStripped).reverse

/-- Index of the last `'.'` in `s`, if any. -/
def rfindDot : List Char → Option Nat
  | [] => none
  | c :: rest =>
    match rfindDot rest with
    | some i => some (i + 1)
    | none => if c = '.' then some 0 else none

/-- `os.path.splitext` for a path without separators (the input has
already had `/` and `\` replaced): split at the last dot, except that a
basename consisting only of leading dots up to that position keeps no
extension. -/
def splitext (s : List Char) : List Char × List Char :=
  match rfindDot s with
  | none => (s, [])
  | some i =>
      if (s.take i).all (fun c => c = '.') then (s, [])
      else (s.take i, s.drop i)

/-- Python's slice `s[:k]` for an `int` bound `k` (negative counts from
the end, clamped at 0). -/
def pySliceTo (s : List Char) (k : Int) : List Char :=
  if 0 ≤ k then s.take k.toNat else s.take (((s.length : Int) + k).toNat)

/-- The value of `filename` after replacement, strip and the
empty-fallback, just before the length check. -/
def sanitizeIntermediate (filename : List Char) : List Char :=
  let f := pyStrip (replaceInvalid filename)
  if f = [] then "download".data else f

/-- `FileManager.sanitize_filename`. -/
def sanitize_filename (filename : List Char) : List Char :=
  let f := sanitizeIntermediate filename
  if 250 < f.length then
    let ne := splitext f
    pySliceTo ne.1 (250 - (ne.2.length : Int)) ++ ne.2
  else f

example : sanitize_filename "a<b>c.txt".data = "a_b_c.txt".data := by decide
example : sanitize_filename "  ..name.. ".data = "name".data := by decide
example : sanitize_filename "".data = "download".data := by decide
example : sanitize_filename " .. ".data = "download".data := by decide
example : splitext "ab.cd.ef".data = ("ab.cd".data, ".ef".data) := by decide
example : splitext ".bashrc".data = (".bashrc".data, []) := by decide
example : splitext "noext".data = ("noext".data, []) := by decide

set_option maxRecDepth 8000 in
/-- C9 counterexample.  The input of 249 `'a'`s, one space, then 100
`'b'`s contains no invalid character and no dot; sanitization leaves it
unchanged (350 chars), and the length truncation — applied *after* the
strip step — cuts it to its first 250 characters, whose last character is
the interior space: the returned filename has a trailing space. -/
theorem sanitize_filename_counterexample :
    (sanitize_filename
        (List.replicate 249 'a' ++ [' '] ++ List.replicate 100 'b')).getLast?
      = some ' ' ∧
    (sanitize_filename
        (List.replicate 249 'a' ++ [' '] ++ List.replicate 100 'b')).length = 250 := by
  refine ⟨by decide, by decide⟩

lemma dropWhile_head?_not (p : Char → Bool) (l : List Char) (c : Char)
    (hc : (l.dropWhile p).head? = some c) : p c = false := by
  induction l with
  | nil => simp at hc
  | cons a t ih =>
      rw [List.dropWhile_cons] at hc
      by_cases hpa : p a = true
      · rw [if_pos hpa] at hc
        exact ih hc
      · rw [if_neg hpa] at hc
        simp only [List.head?_cons, Option.some.injEq] at hc
        rw [← hc]
        exact Bool.eq_false_iff.mpr hpa

lemma dropWhile_getLast?_of_ne_nil (p : Char → Bool) (l : List Char)
    (h : l.dropWhile p ≠ []) : (l.dropWhile p).getLast? = l.getLast? := by
  obtain ⟨t, ht⟩ := List.dropWhile_suffix (l := l) p
  conv_rhs => rw [← ht]
  rw [List.getLast?_append]
  cases hx : (l.dropWhile p).getLast? with
  | none => exact absurd (List.getLast?_eq_none_iff.mp hx) h
  | some c => rfl

lemma pyStrip_head?_not (t : List Char) (c : Char)
    (hc : (pyStrip t).head? = some c) : isStripped c = false := by
  unfold pyStrip at hc
  rw [List.head?_reverse] at hc
  have hne : (((t.dropWhile isStripped).reverse).dropWhile isStripped) ≠ [] := by
    intro hnil
    rw [hnil] at hc
    simp at hc
  rw [dropWhile_getLast?_of_ne_nil _ _ hne, List.getLast?_reverse] at hc
  exact dropWhile_head?_not _ _ _ hc

lemma pyStrip_getLast?_not (t : List Char) (c : Char)
    (hc : (pyStrip t).getLast? = some c) : isStripped c = false := by
  unfold pyStrip at hc
  rw [List.getLast?_reverse] at hc
  exact dropWhile_head?_not _ _ _ hc

lemma pyStrip_subset (t : List Char) : pyStrip t ⊆ t := by
  intro c hc
  unfold pyStrip at hc
  rw [List.mem_reverse] at hc
  have h1 := (List.dropWhile_sublist (l := (t.dropWhile isStripped).reverse) isStripped).subset hc
  rw [List.mem_reverse] at h1
  exact (List.dropWhile_sublist isStripped).subset h1

lemma replaceInvalid_clean (s : List Char) :
    ∀ c ∈ replaceInvalid s, c ∉ invalid_chars := by
  intro c hc
  unfold replaceInvalid at hc
  rw [List.mem_map] at hc
  obtain ⟨a, _, ha⟩ := hc
  by_cases hmem : a ∈ invalid_chars
  · rw [if_pos hmem] at ha
    rw [← ha]; decide
  · rw [if_neg hmem] at ha
    rw [← ha]
    exact hmem

lemma splitext_append (s : List Char) : (splitext s).1 ++ (splitext s).2 = s := by
  unfold splitext
  cases h : rfindDot s with
  | none => simp
  | some i =>
      dsimp only
      by_cases hall : (s.take i).all (fun c => c = '.')
      · rw [if_pos hall]
        simp
      · rw [if_neg hall]
        exact List.take_append_drop i s

lemma rfindDot_lt_length (s : List Char) (i : Nat) (h : rfindDot s = some i) :
    i < s.length := by
  induction s generalizing i with
  | nil => simp [rfindDot] at h
  | cons a t ih =>
      rw [rfindDot] at h
      cases ht : rfindDot t with
      | some j =>
          rw [ht] at h
          simp only [Option.some.injEq] at h
          have := ih j ht
          simp [← h, List.length_cons]
          omega
      | none =>
          rw [ht] at h
          by_cases ha : a = '.'
          · rw [if_pos ha] at h
            simp only [Option.some.injEq] at h
            simp [← h]
          · rw [if_neg ha] at h
            exact absurd h (by simp)

lemma splitext_ext_nil_name (s : List Char) (h : (splitext s).2 = []) :
    (splitext s).1 = s := by
  unfold splitext at *
  cases hr : rfindDot s with
  | none => rfl
  | some i =>
      rw [hr] at h
      dsimp only at h ⊢
      by_cases hall : (s.take i).all (fun c => c = '.')
      · rw [if_pos hall]
      · rw [if_neg hall] at h ⊢
        exfalso
        have hlt := rfindDot_lt_length s i hr
        have : s.length ≤ i := List.drop_eq_nil_iff.mp h
        omega

lemma sanitizeIntermediate_ne_nil (s : List Char) : sanitizeIntermediate s ≠ [] := by
  unfold sanitizeIntermediate
  by_cases h : pyStrip (replaceInvalid s) = []
  · rw [if_pos h]; decide
  · rwa [if_neg h]

lemma sanitizeIntermediate_clean (s : List Char) :
    ∀ c ∈ sanitizeIntermediate s, c ∉ invalid_chars := by
  intro c hc
  unfold sanitizeIntermediate at hc
  by_cases h : pyStrip (replaceInvalid s) = []
  · rw [if_pos h] at hc
    fin_cases hc <;> decide
  · rw [if_neg h] at hc
    exact replaceInvalid_clean s c (pyStrip_subset _ hc)

lemma sanitize_filename_eq_id (s : List Char)
    (h : ¬ 250 < (sanitizeIntermediate s).length) :
    sanitize_filename s = sanitizeIntermediate s := by
  unfold sanitize_filename
  rw [if_neg h]

lemma sanitize_filename_eq_trunc (s : List Char)
    (h : 250 < (sanitizeIntermediate s).length) :
    sanitize_filename s =
      pySliceTo (splitext (sanitizeIntermediate s)).1
        (250 - ((splitext (sanitizeIntermediate s)).2.length : Int))
        ++ (splitext (sanitizeIntermediate s)).2 := by
  unfold sanitize_filename
  rw [if_pos h]

/-- C9 amended.  `sanitize_filename` always returns a non-empty name with
none of the characters `<>:"/\|?*`; an input that is empty or strips to
empty yields `"download"`; when no truncation occurs (the stripped
intermediate is at most 250 characters) the result is exactly that
intermediate and has no leading or trailing dot or space; and the result
is at most 250 characters whenever the *intermediate's* `splitext`
extension — not the raw input's — is shorter than 250 characters.
(Truncation can re-expose a trailing space, and an intermediate extension
of 250+ characters can defeat the length bound; see the
counterexample.) -/
theorem sanitize_filename_spec (s : List Char) :
    sanitize_filename s ≠ [] ∧
    (∀ c ∈ sanitize_filename s, c ∉ invalid_chars) ∧
    (pyStrip (replaceInvalid s) = [] → sanitize_filename s = "download".data) ∧
    ((sanitizeIntermediate s).length ≤ 250 →
      sanitize_filename s = sanitizeIntermediate s ∧
      (∀ c, (sanitize_filename s).head? = some c → isStripped c = false) ∧
      (∀ c, (sanitize_filename s).getLast? = some c → isStripped c = false)) ∧
    ((splitext (sanitizeIntermediate s)).2.length < 250 →
      (sanitize_filename s).length ≤ 250) := by
  have hclean := sanitizeIntermediate_clean s
  have hne := sanitizeIntermediate_ne_nil s
  have hdl : pyStrip (replaceInvalid s) = [] →
      sanitizeIntermediate s = "download".data := by
    intro h
    unfold sanitizeIntermediate
    rw [if_pos h]
  by_cases h250 : 250 < (sanitizeIntermediate s).length
  · -- truncation branch
    have hres := sanitize_filename_eq_trunc s h250
    have hsub : ∀ c ∈ sanitize_filename s, c ∈ sanitizeIntermediate s := by
      intro c hc
      rw [hres] at hc
      rcases List.mem_append.mp hc with hc1 | hc2
      · have hname : c ∈ (splitext (sanitizeIntermediate s)).1 := by
          unfold pySliceTo at hc1
          by_cases hk : (0 : Int) ≤ 250 - ((splitext (sanitizeIntermediate s)).2.length : Int)
          · rw [if_pos hk] at hc1
            exact List.take_subset _ _ hc1
          · rw [if_neg hk] at hc1
            exact List.take_subset _ _ hc1
        rw [← splitext_append (sanitizeIntermediate s)]
        exact List.mem_append.mpr (Or.inl hname)
      · rw [← splitext_append (sanitizeIntermediate s)]
        exact List.mem_append.mpr (Or.inr hc2)
    refine ⟨?_, ?_, ?_, ?_, ?_⟩
    · -- non-empty
      intro habs
      by_cases hext : (splitext (sanitizeIntermediate s)).2 = []
      · have hname := splitext_ext_nil_name _ hext
        rw [hres, hext, List.append_nil, hname] at habs
        unfold pySliceTo at habs
        rw [if_pos (by simp)] at habs
        rcases List.take_eq_nil_iff.mp habs with h1 | h2
        · simp at h1
        · exact hne h2
      · rw [hres] at habs
        exact hext (List.append_eq_nil.mp habs).2
    · intro c hc
      exact hclean c (hsub c hc)
    · intro hnil
      exfalso
      have := hdl hnil
      rw [this] at h250
      simp at h250
    · intro hle
      exact absurd hle (by omega)
    · intro hext
      rw [hres]
      rw [List.length_append]
      have hk : (0 : Int) ≤ 250 - ((splitext (sanitizeIntermediate s)).2.length : Int) := by
        omega
      unfold pySliceTo
      rw [if_pos hk]
      rw [List.length_take]
      have : (250 - ((splitext (sanitizeIntermediate s)).2.length : Int)).toNat
          = 250 - (splitext (sanitizeIntermediate s)).2.length := by omega
      rw [this]
      omega
  · -- no truncation
    have hres := sanitize_filename_eq_id s h250
    refine ⟨by rw [hres]; exact hne, ?_, ?_, ?_, ?_⟩
    · intro c hc
      rw [hres] at hc
      exact hclean c hc
    · intro hnil
      rw [hres]
      exact hdl hnil
    · intro _
      refine ⟨hres, ?_, ?_⟩
      · intro c hc
        rw [hres] at hc
        unfold sanitizeIntermediate at hc
        by_cases hnil : pyStrip (replaceInvalid s) = []
        · rw [if_pos hnil] at hc
          have : c = 'd' := by
            have : ("download".data).head? = some 'd' := rfl
            rw [this] at hc
            exact (Option.some.injEq _ _).mp hc.symm
          rw [this]; decide
        · rw [if_neg hnil] at hc
          exact pyStrip_head?_not _ _ hc
      · intro c hc
        rw [hres] at hc
        unfold sanitizeIntermediate at hc
        by_cases hnil : pyStrip (replaceInvalid s) = []
        · rw [if_pos hnil] at hc
          have : c = 'd' := by
            have : ("download".data).getLast? = some 'd' := rfl
            rw [this] at hc
            exact (Option.some.injEq _ _).mp hc.symm
          rw [this]; decide
        · rw [if_neg hnil] at hc
          exact pyStrip_getLast?_not _ _ hc
    · intro _
      rw [hres]
      omega

/-- Witness for the amended C9 at the concrete input `" na?me.txt. "`. -/
theorem sanitize_filename_spec_witness :
    (sanitizeIntermediate " na?me.txt. ".data).length ≤ 250 ∧
    (sanitize_filename " na?me.txt. ".data ≠ [] ∧
    (∀ c ∈ sanitize_filename " na?me.txt. ".data, c ∉ invalid_chars) ∧
    (pyStrip (replaceInvalid " na?me.txt. ".data) = [] →
      sanitize_filename " na?me.txt. ".data = "download".data) ∧
    ((sanitizeIntermediate " na?me.txt. ".data).length ≤ 250 →
      sanitize_filename " na?me.txt. ".data = sanitizeIntermediate " na?me.txt. ".data ∧
      (∀ c, (sanitize_filename " na?me.txt. ".data).head? = some c → isStripped c = false) ∧
      (∀ c, (sanitize_filename " na?me.txt. ".data).getLast? = some c → isStripped c = false)) ∧
    ((splitext (sanitizeIntermediate " na?me.txt. ".data)).2.length < 250 →
      (sanitize_filename " na?me.txt. ".data).length ≤ 250)) :=
  ⟨by decide, sanitize_filename_spec " na?me.txt. ".data⟩

/-! ## Queue scheduler (`fetchx_cli/core/queue.py`, `DownloadQueue`)

The scheduler state is the `queue_items` table (rows `(id, status)` in
`created_at` order) together with the keys of the `_active_downloads`
dict.  The transition relation mirrors the code paths that touch either:

* `add_download` inserts a fresh row with status `queued` (ids are
  `uuid4`, hence fresh);
* one iteration of the inner `while` of `_process_queue` +
  `_start_download`: guarded by `len(_active_downloads) < max_concurrent`,
  it pops the oldest queued item, sets it `downloading` and registers the
  coordinator under the item id (a dict insert);
* `pause_download` / `resume_download` / `cancel_download` update the
  row's status only;
* `_download_wrapper`'s terminal paths write `completed`/`failed`/
  `cancelled` and the `finally` block removes the id from
  `_active_downloads`. -/

inductive QueueStatus where
  | queued | downloading | paused | completed | failed | cancelled
deriving Repr, DecidableEq

structure QueueState where
  items : List (String × QueueStatus)
  active : List String
deriving Repr

/-- `UPDATE queue_items SET status = ? WHERE id = ?`. -/
def setStatus (items : List (String × QueueStatus)) (id : String)
    (st : QueueStatus) : List (String × QueueStatus) :=
  items.map (fun p => if p.1 = id then (p.1, st) else p)

/-- `_get_next_queued_item`: the oldest row with status `queued`. -/
def firstQueued (items : List (String × QueueStatus)) : Option String :=
  ((items.filter (fun p => p.2 = QueueStatus.queued)).head?).map Prod.fst

/-- Registration in the `_active_downloads` dict (keys stay unique). -/
def activeInsert (active : List String) (id : String) : List String :=
  if id ∈ active then active else active ++ [id]

/-- Number of rows currently in the `downloading` state. -/
def countDownloading (s : QueueState) : Nat :=
  (s.items.filter (fun p => p.2 = QueueStatus.downloading)).length

inductive QStep (cap : Nat) : QueueState → QueueState → Prop where
  | add (s : QueueState) (id : String) (h : id ∉ s.items.map Prod.fst) :
      QStep cap s ⟨s.items ++ [(id, .queued)], s.active⟩
  | start (s : QueueState) (id : String)
      (hcap : s.active.length < cap)
      (hq : firstQueued s.items = some id) :
      QStep cap s ⟨setStatus s.items id .downloading, activeInsert s.active id⟩
  | pause (s : QueueState) (id : String)
      (h : (id, QueueStatus.downloading) ∈ s.items) :
      QStep cap s ⟨setStatus s.items id .paused, s.active⟩
  | resume (s : QueueState) (id : String)
      (h : (id, QueueStatus.paused) ∈ s.items) :
      QStep cap s ⟨setStatus s.items id .queued, s.active⟩
  | cancel (s : QueueState) (id : String) :
      QStep cap s ⟨setStatus s.items id .cancelled, s.active⟩
  | finish (s : QueueState) (id : String) (st : QueueStatus)
      (hid : id ∈ s.active)
      (hst : st = .completed ∨ st = .failed ∨ st = .cancelled) :
      QStep cap s ⟨setStatus s.items id st, s.active.erase id⟩

/-- States reachable from the empty queue with no active downloads. -/
inductive QReachable (cap : Nat) : QueueState → Prop where
  | init : QReachable cap ⟨[], []⟩
  | step {s s' : QueueState} : QReachable cap s → QStep cap s s' →
      QReachable cap s'

/-- The inductive invariant of the scheduler. -/
def QInv (cap : Nat) (s : QueueState) : Prop :=
  s.active.length ≤ cap ∧ s.active.Nodup ∧ (s.items.map Prod.fst).Nodup ∧
  ∀ id, (id, QueueStatus.downloading) ∈ s.items → id ∈ s.active

lemma setStatus_map_fst (items : List (String × QueueStatus)) (id : String)
    (st : QueueStatus) :
    (setStatus items id st).map Prod.fst = items.map Prod.fst := by
  unfold setStatus
  rw [List.map_map]
  apply List.map_congr_left
  intro p _
  by_cases h : p.1 = id
  · simp [h]
  · simp [h]

lemma mem_setStatus_elim {items : List (String × QueueStatus)} {id : String}
    {st : QueueStatus} {a : String} {st' : QueueStatus}
    (h : (a, st') ∈ setStatus items id st) :
    (a = id ∧ st' = st) ∨ ((a, st') ∈ items ∧ a ≠ id) := by
  unfold setStatus at h
  rw [List.mem_map] at h
  obtain ⟨p, hp, heq⟩ := h
  by_cases hpid : p.1 = id
  · rw [if_pos hpid] at heq
    left
    have h1 : p.1 = a := congrArg Prod.fst heq
    have h2 : st = st' := congrArg Prod.snd heq
    exact ⟨h1 ▸ hpid, h2.symm⟩
  · rw [if_neg hpid] at heq
    right
    constructor
    · rwa [heq] at hp
    · have h1 : p.1 = a := congrArg Prod.fst heq
      rw [← h1]
      exact hpid

lemma activeInsert_nodup {active : List String} (id : String)
    (h : active.Nodup) : (activeInsert active id).Nodup := by
  unfold activeInsert
  split_ifs with hm
  · exact h
  · rw [List.nodup_append]
    exact ⟨h, by simp, by simp [hm]⟩

lemma activeInsert_length_le {active : List String} {cap : Nat} (id : String)
    (hcap : active.length < cap) : (activeInsert active id).length ≤ cap := by
  unfold activeInsert
  split_ifs with hm
  · omega
  · rw [List.length_append]
    simp
    omega

lemma mem_activeInsert_self (active : List String) (id : String) :
    id ∈ activeInsert active id := by
  unfold activeInsert
  split_ifs with hm
  · exact hm
  · simp

lemma mem_activeInsert_of {active : List String} {a : String} (id : String)
    (h : a ∈ active) : a ∈ activeInsert active id := by
  unfold activeInsert
  split_ifs with hm
  · exact h
  · exact List.mem_append.mpr (Or.inl h)

lemma QInv_preserved {cap : Nat} {s s' : QueueState}
    (hinv : QInv cap s) (hstep : QStep cap s s') : QInv cap s' := by
  obtain ⟨hlen, hand, hind, hdl⟩ := hinv
  cases hstep with
  | add id h =>
      refine ⟨hlen, hand, ?_, ?_⟩
      · rw [List.map_append]
        rw [List.nodup_append]
        exact ⟨hind, by simp, by simpa using h⟩
      · intro a ha
        rcases List.mem_append.mp ha with h1 | h2
        · exact hdl a h1
        · simp at h2
  | start id hcap hq =>
      refine ⟨activeInsert_length_le id hcap, activeInsert_nodup id hand, ?_, ?_⟩
      · rw [setStatus_map_fst]; exact hind
      · intro a ha
        rcases mem_setStatus_elim ha with ⟨ha1, _⟩ | ⟨h1, _⟩
        · rw [ha1]; exact mem_activeInsert_self s.active id
        · exact mem_activeInsert_of id (hdl a h1)
  | pause id h =>
      refine ⟨hlen, hand, by rw [setStatus_map_fst]; exact hind, ?_⟩
      intro a ha
      rcases mem_setStatus_elim ha with ⟨_, hst⟩ | ⟨h1, _⟩
      · exact absurd hst (by decide)
      · exact hdl a h1
  | resume id h =>
      refine ⟨hlen, hand, by rw [setStatus_map_fst]; exact hind, ?_⟩
      intro a ha
      rcases mem_setStatus_elim ha with ⟨_, hst⟩ | ⟨h1, _⟩
      · exact absurd hst (by decide)
      · exact hdl a h1
  | cancel id =>
      refine ⟨hlen, hand, by rw [setStatus_map_fst]; exact hind, ?_⟩
      intro a ha
      rcases mem_setStatus_elim ha with ⟨_, hst⟩ | ⟨h1, _⟩
      · exact absurd hst (by decide)
      · exact hdl a h1
  | finish id st hid hst =>
      refine ⟨le_trans (List.length_erase_le _ _) hlen, hand.erase id,
        by rw [setStatus_map_fst]; exact hind, ?_⟩
      intro a ha
      rcases mem_setStatus_elim ha with ⟨_, hst'⟩ | ⟨h1, hne⟩
      · rcases hst with h | h | h <;> rw [h] at hst' <;> exact absurd hst' (by decide)
      · exact (List.mem_erase_of_ne hne).mpr (hdl a h1)

lemma QInv_reachable {cap : Nat} {s : QueueState} (h : QReachable cap s) :
    QInv cap s := by
  induction h with
  | init =>
      refine ⟨by simp, by simp, by simp, ?_⟩
      intro a ha
      simp at ha
  | step _ hstep ih => exact QInv_preserved ih hstep

lemma countDownloading_le_active {cap : Nat} {s : QueueState}
    (hinv : QInv cap s) : countDownloading s ≤ s.active.length := by
  obtain ⟨_, _, hind, hdl⟩ := hinv
  have hsub : ((s.items.filter (fun p => p.2 = QueueStatus.downloading)).map Prod.fst)
      ⊆ s.active := by
    intro a ha
    rw [List.mem_map] at ha
    obtain ⟨p, hp, hpa⟩ := ha
    obtain ⟨hpmem, hpd⟩ := List.mem_filter.mp hp
    cases p with
    | mk p1 p2 =>
        have hp2 : p2 = QueueStatus.downloading := by simpa using hpd
        have hp1 : p1 = a := hpa
        rw [hp1, hp2] at hpmem
        exact hdl a hpmem
  have hnd : ((s.items.filter (fun p => p.2 = QueueStatus.downloading)).map Prod.fst).Nodup :=
    ((List.filter_sublist _).map Prod.fst).nodup hind
  have hle := (hnd.subperm hsub).length_le
  rw [List.length_map] at hle
  exact hle

/-- C5.  In every state reachable by the queue scheduler, both the number
of registered active coordinators and the number of queue items in the
`downloading` state are bounded by `max_concurrent_downloads`; and the
only transition that grows the active set — starting a download — fires
only while the active count is strictly below the cap. -/
theorem queue_concurrency_cap (cap : Nat) :
    (∀ s : QueueState, QReachable cap s →
      countDownloading s ≤ cap ∧ s.active.length ≤ cap) ∧
    (∀ s s' : QueueState, QStep cap s s' →
      s.active.length < s'.active.length → s.active.length < cap) := by
  constructor
  · intro s hs
    have hinv := QInv_reachable hs
    exact ⟨le_trans (countDownloading_le_active hinv) hinv.1, hinv.1⟩
  · intro s s' hstep hgrow
    cases hstep with
    | add id h => exact absurd hgrow (lt_irrefl _)
    | start id hcap hq => exact hcap
    | pause id h => exact absurd hgrow (lt_irrefl _)
    | resume id h => exact absurd hgrow (lt_irrefl _)
    | cancel id => exact absurd hgrow (lt_irrefl _)
    | finish id st hid hst =>
        exfalso
        have h1 : s.active.length < (s.active.erase id).length := hgrow
        have h2 := List.length_erase_le id s.active
        omega

/-- Witness for C5: with cap 2, after adding item `"a"` and starting it,
the reachable state has one downloading item and one active coordinator,
both within the cap. -/
theorem queue_concurrency_cap_witness :
    QReachable 2 ⟨setStatus [("a", QueueStatus.queued)] "a" QueueStatus.downloading,
      activeInsert [] "a"⟩ ∧
    (countDownloading ⟨setStatus [("a", QueueStatus.queued)] "a" QueueStatus.downloading,
      activeInsert [] "a"⟩ ≤ 2 ∧
    (⟨setStatus [("a", QueueStatus.queued)] "a" QueueStatus.downloading,
      activeInsert [] "a"⟩ : QueueState).active.length ≤ 2) ∧
    countDownloading ⟨setStatus [("a", QueueStatus.queued)] "a" QueueStatus.downloading,
      activeInsert [] "a"⟩ = 1 := by
  have h1 : QReachable 2 ⟨[("a", QueueStatus.queued)], []⟩ :=
    QReachable.step QReachable.init (QStep.add ⟨[], []⟩ "a" (by simp))
  have h2 : QReachable 2 ⟨setStatus [("a", QueueStatus.queued)] "a" QueueStatus.downloading,
      activeInsert [] "a"⟩ :=
    QReachable.step h1 (QStep.start ⟨[("a", QueueStatus.queued)], []⟩ "a"
      (by simp) (by decide))
  exact ⟨h2, (queue_concurrency_cap 2).1 _ h2, by decide⟩

/-! ## Queue-item lookup by id prefix (`fetchx_cli/core/database.py`,
`DatabaseManager.get_queue_item`)

The query is `SELECT * FROM queue_items WHERE id LIKE '<item_id>%' LIMIT 1`
with no `ORDER BY`: the first matching row in table order is returned.
Ids are modelled as `List Char`; for patterns free of the LIKE wildcards
`%`/`_` and of mixed case — `uuid4` ids are lowercase hex — `LIKE
'<item_id>%'` is exactly a prefix match. -/

/-- The rows matched by `id LIKE '<item_id>%'`. -/
def like_matches (rows : List (List Char)) (item_id : List Char) :
    List (List Char) :=
  rows.filter (fun r => item_id.isPrefixOf r)

/-- `DatabaseManager.get_queue_item`: `LIMIT 1` on the matches. -/
def get_queue_item (rows : List (List Char)) (item_id : List Char) :
    Option (List Char) :=
  (like_matches rows item_id).head?

/-- C8 counterexample.  With two items `"ab1"` and `"ab2"` and the prefix
`"ab"`, two rows match, yet the lookup silently returns the first one
(`"ab1"`) instead of reporting the ambiguity. -/
theorem get_queue_item_ambiguous_counterexample :
    (like_matches ["ab1".data, "ab2".data] "ab".data).length = 2 ∧
    get_queue_item ["ab1".data, "ab2".data] "ab".data = some "ab1".data := by
  refine ⟨by decide, by decide⟩

/-- C8 amended.  The prefix lookup returns `none` exactly when no item id
starts with the prefix; any returned item is a matching row; when exactly
one row matches it is the one returned; and whenever at least one row
matches, some row is returned — with several matches the first in table
order is silently chosen, no `Ambiguous` outcome exists. -/
theorem get_queue_item_first_match (rows : List (List Char)) (item_id : List Char) :
    (get_queue_item rows item_id = none ↔
      ∀ r ∈ rows, ¬ item_id.isPrefixOf r = true) ∧
    (∀ x, get_queue_item rows item_id = some x →
      x ∈ rows ∧ item_id.isPrefixOf x = true) ∧
    (∀ x, like_matches rows item_id = [x] → get_queue_item rows item_id = some x) ∧
    ((∃ r ∈ rows, item_id.isPrefixOf r = true) →
      ∃ x, get_queue_item rows item_id = some x) := by
  refine ⟨?_, ?_, ?_, ?_⟩
  · unfold get_queue_item like_matches
    rw [List.head?_eq_none_iff, List.filter_eq_nil_iff]
  · intro x hx
    unfold get_queue_item at hx
    cases hf : like_matches rows item_id with
    | nil => rw [hf] at hx; simp at hx
    | cons b t =>
        rw [hf] at hx
        simp only [List.head?_cons, Option.some.injEq] at hx
        have hb : x ∈ like_matches rows item_id := by
          rw [hf, ← hx]
          exact List.mem_cons_self b t
        exact List.mem_filter.mp hb
  · intro x hx
    unfold get_queue_item
    rw [hx]
    rfl
  · rintro ⟨r, hr, hpre⟩
    cases hres : get_queue_item rows item_id with
    | some x => exact ⟨x, rfl⟩
    | none =>
        exfalso
        have h1 : ∀ a ∈ rows, ¬ item_id.isPrefixOf a = true := by
          have := hres
          unfold get_queue_item like_matches at this
          rw [List.head?_eq_none_iff, List.filter_eq_nil_iff] at this
          exact this
        exact h1 r hr hpre

/-- Witness for the amended C8: a single matching row is found and
returned. -/
theorem get_queue_item_first_match_witness :
    (like_matches ["ab1".data, "xy".data] "ab".data = ["ab1".data]) ∧
    get_queue_item ["ab1".data, "xy".data] "ab".data = some "ab1".data :=
  ⟨by decide,
    (get_queue_item_first_match ["ab1".data, "xy".data] "ab".data).2.2.1
      "ab1".data (by decide)⟩
